import Mathlib

/-!
Verification of the preference-resolution engine in
`src/packages/core-browser/src/preferences/preference-service.ts`.

The service is shallowly embedded: JavaScript runtime values are the inductive
type `JSVal` (with `undefinedVal` for `undefined`); the mutable LRU caches become an
explicit `ServiceState` threaded through the operations; JS exceptions
(TypeError on property access of `undefined`/`null`) become `Except Unit`.
Because `doResolve` returns the very object stored in the cache (JS reference
semantics), the embedding returns a cache-cell index, so aliasing between the
caller's view and the cached entry is represented faithfully.

Collaborator code that lives in this repository but outside the provided
sources (`preference-scope.ts`, `preference-provider.ts`, `deepClone` and
`LRUMap` from ide-core-common, `PreferenceConfigurations`) is modelled from the
spec, as marked on each such definition.
-/

/-- A JavaScript runtime value as far as the preference service observes it:
`undefined`, `null`, booleans, numbers, strings and plain key-value records.
Record fields are kept in insertion order, as JS object keys are. -/
inductive JSVal where
  | undefinedVal : JSVal
  | null : JSVal
  | bool : Bool → JSVal
  | num : Int → JSVal
  | str : String → JSVal
  | obj : List (String × JSVal) → JSVal

/-- `v === undefined`, the only equality comparison the service performs on
preference values. -/
def JSVal.isUndefined : JSVal → Bool
  | .undefinedVal => true
  | _ => false

/-- Whether a value is a plain record (a JS object). -/
def JSVal.isObj : JSVal → Bool
  | .obj _ => true
  | _ => false

/-- JavaScript truthiness, used by `lookUp`'s `if (value)` test and by the
`!resourceUri` checks. -/
def JSVal.truthy : JSVal → Bool
  | .undefinedVal => false
  | .null => false
  | .bool b => b
  | .num n => n != 0
  | .str s => s != ""
  | .obj _ => true

/-- JavaScript property access `v[k]`: throws a TypeError when `v` is
`undefined` or `null`, looks up the field on records (absent field gives
`undefined`), and yields `undefined` on primitives (whose boxed objects have
none of the string keys the service ever uses). -/
def JSVal.getProp : JSVal → String → Except Unit JSVal
  | .undefinedVal, _ => .error ()
  | .null, _ => .error ()
  | .obj fields, k =>
      match fields.find? (fun kv => kv.1 == k) with
      | some kv => .ok kv.2
      | none => .ok .undefinedVal
  | _, _ => .ok .undefinedVal

/-- Modelled from the spec (§3, §4.1): `preference-scope.ts` is not among the
provided sources. Scopes form the fixed total order
Default < User < Workspace < Folder. -/
inductive PreferenceScope where
  | Default : PreferenceScope
  | User : PreferenceScope
  | Workspace : PreferenceScope
  | Folder : PreferenceScope
deriving DecidableEq, Repr

/-- The ordinal of a scope (the TS enum's numeric value). -/
def PreferenceScope.toNat : PreferenceScope → Nat
  | .Default => 0
  | .User => 1
  | .Workspace => 2
  | .Folder => 3

/-- Modelled from the spec (§4.1): ascending iteration over the scopes. -/
def PreferenceScope.getScopes : List PreferenceScope :=
  [.Default, .User, .Workspace, .Folder]

/-- Modelled from the spec (§4.1): descending iteration over the scopes. -/
def PreferenceScope.getReversedScopes : List PreferenceScope :=
  [.Folder, .Workspace, .User, .Default]

/-- Modelled from the spec (§4.6): the display name of a scope, used in the
write-failure error message (`getScopeNames(scope)[0]`). -/
def PreferenceScope.scopeName : PreferenceScope → String
  | .Default => "Default"
  | .User => "User"
  | .Workspace => "Workspace"
  | .Folder => "Folder"

/-- What a provider's `resolve` returns: `{ value?, configUri?, languageSpecific? }`. -/
structure ProviderResolveResult where
  value : JSVal := .undefinedVal
  configUri : Option String := none
  languageSpecific : Bool := false

/-- Modelled from the spec (§6): the per-scope provider contract, an external
collaborator. `get` is the synchronous point lookup, `resolve` the richer
lookup, `setPreference` the best-effort write (its Bool is the reported
success). Arguments are name, resource URI, language. -/
structure PreferenceProvider where
  get : String → Option String → Option String → JSVal
  resolve : String → Option String → Option String → ProviderResolveResult
  setPreference : String → JSVal → Option String → Bool

/-- Helper fields merge for `PreferenceProvider.merge`: keys of the
accumulated record survive (overridden key-wise by the new record), keys only
in the new record are appended. -/
def mergeFields (fa fb : List (String × JSVal)) : List (String × JSVal) :=
  fa.map (fun kv =>
    match fb.find? (fun kv2 => kv2.1 == kv.1) with
    | some kv2 => (kv.1, kv2.2)
    | none => kv)
  ++ fb.filter (fun kv2 => (fa.find? (fun kv => kv.1 == kv2.1)).isNone)

/-- Modelled from the spec (§4.2): `PreferenceProvider.merge` lives in
`preference-provider.ts`, which is not among the provided sources. If both
values are plain records, merge key-wise (the new scope's keys override
same-named keys, keys absent from the new record are preserved); otherwise the
new value fully replaces the accumulated one. -/
def PreferenceProvider.merge (a b : JSVal) : JSVal :=
  match a, b with
  | .obj fa, .obj fb => .obj (mergeFields fa fb)
  | _, _ => b

mutual

/-- Modelled from the spec (§4.2, §9): `deepClone` from ide-core-common is not
among the provided sources; it is an explicit structural copy of plain
records. On the immutable value representation the copy is structurally equal
to its argument; sharing with the cache is modelled at the cache-cell level. -/
def deepClone : JSVal → JSVal
  | .undefinedVal => .undefinedVal
  | .null => .null
  | .bool b => .bool b
  | .num n => .num n
  | .str s => .str s
  | .obj fields => .obj (deepCloneFields fields)

def deepCloneFields : List (String × JSVal) → List (String × JSVal)
  | [] => []
  | (k, v) :: rest => (k, deepClone v) :: deepCloneFields rest

end


/-- The environment of external collaborators the service is wired to:
the schema contract, the provider per scope (`getProvider` may miss), and the
`PreferenceConfigurations.isSectionName` predicate used by `set`. -/
structure Env where
  isValidInScope : String → PreferenceScope → Bool
  providers : PreferenceScope → Option PreferenceProvider
  isSectionName : String → Bool

/-- The service's `PreferenceResolveResult`: what `doResolveWithOutCache`
builds and the cache stores. `scope` is optional because the object literal
`{ value }` built by `lookUp` carries no scope. -/
structure PreferenceResolveResult where
  value : JSVal := .undefinedVal
  scope : Option PreferenceScope := none
  configUri : Option String := none
  languageSpecific : Bool := false

instance : Inhabited PreferenceResolveResult := ⟨{}⟩

namespace PreferenceServiceImpl

/-- The scope list walked by `doResolveWithOutCache`:
`untilScope ? getScopes().filter(s => s <= untilScope) : getScopes()`.
Note the JS truthiness quirk: `untilScope = Default` (numeric 0) is falsy, so
it behaves like no ceiling at all. -/
def walkScopes (untilScope : Option PreferenceScope) : List PreferenceScope :=
  match untilScope with
  | some u =>
      if u.toNat = 0 then PreferenceScope.getScopes
      else PreferenceScope.getScopes.filter (fun s => s.toNat ≤ u.toNat)
  | none => PreferenceScope.getScopes

/-- One iteration of the language-agnostic merge loop of
`doResolveWithOutCache`: if the schema admits the name at this scope and the
scope has a provider whose resolve yields a defined value, merge it in and
record the contributing scope and configUri. -/
def mergeStep (env : Env) (preferenceName : String) (resourceUri : Option String)
    (language : Option String)
    (result : PreferenceResolveResult) (scope : PreferenceScope) : PreferenceResolveResult :=
  if env.isValidInScope preferenceName scope then
    match env.providers scope with
    | some provider =>
        let pr := provider.resolve preferenceName resourceUri language
        if pr.value.isUndefined then result
        else
          { result with
            configUri := pr.configUri
            value := PreferenceProvider.merge result.value pr.value
            scope := some scope
            languageSpecific :=
              match language with
              | some _ => result.languageSpecific || pr.languageSpecific
              | none => result.languageSpecific }
    | none => result
  else result

/-- `PreferenceServiceImpl.doResolveWithOutCache`: walk the scopes ascending
merging language-agnostic contributions, then (when a language is given) walk
them again merging language-specific contributions, and finally deep-clone the
merged value. The returned `scope` is `result.scope || Default`. -/
def doResolveWithOutCache (env : Env) (preferenceName : String)
    (resourceUri : Option String) (untilScope : Option PreferenceScope)
    (language : Option String) : PreferenceResolveResult :=
  let scopes := walkScopes untilScope
  let init : PreferenceResolveResult := { scope := some .Default }
  let result := scopes.foldl (mergeStep env preferenceName resourceUri none) init
  let result :=
    match language with
    | some lang =>
        scopes.foldl (mergeStep env preferenceName resourceUri (some lang)) result
    | none => result
  { configUri := result.configUri
    value := if result.value.isUndefined then .undefinedVal else deepClone result.value
    scope := some ((result.scope.getD .Default))
    languageSpecific := result.languageSpecific }

end PreferenceServiceImpl

/-- Association-list lookup by string key (JS object / Map access). -/
def lookupA {α : Type} (k : String) : List (String × α) → Option α
  | [] => none
  | kv :: rest => if kv.1 == k then some kv.2 else lookupA k rest

/-- Association-list update (JS object / Map `set`): replace the value at an
existing key in place, else append the binding; insertion order is kept. -/
def insertA {α : Type} (k : String) (v : α) : List (String × α) → List (String × α)
  | [] => [(k, v)]
  | kv :: rest => if kv.1 == k then (k, v) :: rest else kv :: insertA k v rest

/-- Association-list deletion (JS Map `delete`). -/
def removeA {α : Type} (k : String) : List (String × α) → List (String × α)
  | [] => []
  | kv :: rest => if kv.1 == k then rest else kv :: removeA k rest

/-- The mutable state of a `PreferenceServiceImpl`: the heap of
`PreferenceResolveResult` objects ever stored in the cache (`cells`, addressed
by allocation index — JS object identity), and the two-level cache
`cachedPreference` mapping a preference name to the inner map from composite
cache key to the cell holding that entry.

The real inner/outer maps are bounded `LRUMap`s (capacities 1000/500 and
500/200, from ide-core-common, not among the provided sources); below those
capacities an LRU map behaves exactly like an ordinary map, and every scenario
in this development stays far below them, so the maps are modelled unbounded. -/
structure ServiceState where
  cells : List PreferenceResolveResult
  cachedPreference : List (String × List (String × Nat))

/-- The state of a freshly constructed service: empty cache. -/
def emptyState : ServiceState := { cells := [], cachedPreference := [] }

namespace PreferenceServiceImpl

/-- The composite cache key: the template literal
`` `${language}:::${untilScope}:::${resourceUri}` `` with `undefined`
rendering as the string "undefined" and the scope as its enum number. -/
def cacheHash (language : Option String) (untilScope : Option PreferenceScope)
    (resourceUri : Option String) : String :=
  (match language with | some l => l | none => "undefined")
    ++ ":::"
    ++ (match untilScope with | some u => toString u.toNat | none => "undefined")
    ++ ":::"
    ++ (match resourceUri with | some r => r | none => "undefined")

/-- `PreferenceServiceImpl.doResolve`: ensure the outer cache has an inner map
for the name, compute and store the resolution on an inner miss, then read the
cached object; if its `value` is `undefined`, assign `defaultValue` to it —
an in-place mutation of the object stored in the cache. The returned value is
the index of that cache cell, because the source returns the very object the
LRU map stores. -/
def doResolve (env : Env) (st : ServiceState) (preferenceName : String)
    (defaultValue : JSVal) (resourceUri : Option String)
    (untilScope : Option PreferenceScope) (language : Option String) :
    Nat × ServiceState :=
  let st :=
    if (lookupA preferenceName st.cachedPreference).isSome then st
    else { st with cachedPreference := st.cachedPreference ++ [(preferenceName, [])] }
  let inner := (lookupA preferenceName st.cachedPreference).getD []
  let key := cacheHash language untilScope resourceUri
  let idxSt :=
    match lookupA key inner with
    | some i => (i, st)
    | none =>
        let computed := doResolveWithOutCache env preferenceName resourceUri untilScope language
        let i := st.cells.length
        (i, { st with
              cells := st.cells ++ [computed]
              cachedPreference :=
                insertA preferenceName (insertA key i inner) st.cachedPreference })
  let idx := idxSt.1
  let st := idxSt.2
  let res := st.cells.getD idx default
  let st :=
    if res.value.isUndefined then
      { st with cells := st.cells.set idx { res with value := defaultValue } }
    else st
  (idx, st)

/-- The cache cell a `doResolve` call handed back, read in a given state. -/
def cellAt (st : ServiceState) (idx : Nat) : PreferenceResolveResult :=
  st.cells.getD idx default

/-- Character-level worker for `jsSplitDot`. -/
def splitDotChars : List Char → List (List Char)
  | [] => [[]]
  | c :: rest =>
      let r := splitDotChars rest
      if c = '.' then [] :: r
      else
        match r with
        | [] => [[c]]
        | g :: gs => (c :: g) :: gs

/-- JavaScript `key.split('.')`: split on every dot, keeping empty segments
(`"".split('.')` is `[""]`). Defined by structural recursion over the
characters so that concrete calls evaluate inside proofs. -/
def jsSplitDot (s : String) : List String :=
  (splitDotChars s.data).map (fun cs => String.mk cs)

/-- JavaScript `Array.prototype.join('.')`, by structural recursion. -/
def joinDots : List String → String
  | [] => ""
  | [p] => p
  | p :: q :: rest => p ++ "." ++ joinDots (q :: rest)

/-- Dotted prefix of the split name: the first `i` parts joined with dots
(`parts.slice(0, i).join('.')`). -/
def prefixJoin (parts : List String) (i : Nat) : String :=
  joinDots (parts.take i)

/-- The `for` loop of `lookUp`: walk `i` from `parts.length - 1` down to `1`,
resolving each dotted prefix; the first truthy value is kept together with the
remaining segments (`reset`); when no prefix is truthy, the loop leaves
`value` holding the last resolution (the shortest prefix) and `reset`
undefined. The argument is the loop counter `i`. -/
def lookUpLoop (env : Env) (st : ServiceState) (parts : List String) :
    Nat → (JSVal × Option (List String)) × ServiceState
  | 0 => ((.undefinedVal, none), st)
  | i + 1 =>
      let r := doResolve env st (prefixJoin parts (i + 1)) .undefinedVal none none none
      let v := (cellAt r.2 r.1).value
      if v.truthy then ((v, some (parts.drop (i + 1))), r.2)
      else if i = 0 then ((v, none), r.2)
      else lookUpLoop env r.2 parts i

/-- The `while` loop of `lookUp`: successive JS property accesses
`value = value[reset.shift()]`; an access on `undefined`/`null` throws. -/
def keyChain : JSVal → List String → Except Unit JSVal
  | v, [] => .ok v
  | v, k :: rest =>
      match v.getProp k with
      | .ok v2 => keyChain v2 rest
      | .error e => .error e

/-- `PreferenceServiceImpl.lookUp`: guard the empty name, split on dots, find
the longest truthy proper prefix, then key-access the remaining segments into
it. Only the value field of the returned literal `{ value }` is populated. -/
def lookUp (env : Env) (st : ServiceState) (key : String) :
    Except Unit JSVal × ServiceState :=
  if key = "" then (.ok .undefinedVal, st)
  else
    let parts := jsSplitDot key
    if parts.length = 0 then (.ok .undefinedVal, st)
    else
      let r := lookUpLoop env st parts (parts.length - 1)
      match r.1.2 with
      | none => (.ok r.1.1, r.2)
      | some reset => (keyChain r.1.1 reset, r.2)

/-- What `resolve` hands back: either the cache cell object produced by
`doResolve` (returned by reference) or the fresh `{ value }` literal built by
`lookUp`. -/
inductive ResolveReturn where
  | cached : Nat → ResolveReturn
  | fresh : JSVal → ResolveReturn

/-- The `value` field of a `resolve` return, read in the final state. -/
def returnValue (st : ServiceState) : ResolveReturn → JSVal
  | .cached idx => (cellAt st idx).value
  | .fresh v => v

/-- The `scope` field of a `resolve` return, read in the final state
(`undefined` on the `lookUp` literal). -/
def returnScope (st : ServiceState) : ResolveReturn → Option PreferenceScope
  | .cached idx => (cellAt st idx).scope
  | .fresh _ => none

/-- `PreferenceServiceImpl.resolve`: resolve through the cache; when the
(default-substituted) value is still `undefined`, fall back to the
dotted-path `lookUp`, whose property accesses may throw. -/
def resolve (env : Env) (st : ServiceState) (preferenceName : String)
    (defaultValue : JSVal) (resourceUri : Option String) (language : Option String) :
    Except Unit ResolveReturn × ServiceState :=
  let r := doResolve env st preferenceName defaultValue resourceUri none language
  if (cellAt r.2 r.1).value.isUndefined then
    let l := lookUp env r.2 preferenceName
    (l.1.map .fresh, l.2)
  else (.ok (.cached r.1), r.2)

/-- `PreferenceServiceImpl.get`: the `value` field of `resolve`'s result. -/
def get (env : Env) (st : ServiceState) (preferenceName : String)
    (defaultValue : JSVal) (resourceUri : Option String) (language : Option String) :
    Except Unit JSVal × ServiceState :=
  let r := resolve env st preferenceName defaultValue resourceUri language
  (r.1.map (returnValue r.2), r.2)

/-- The outcome of `set`, mirroring its three `throw` sites; the write-failure
error names the target scope (`getScopeNames(resolvedScope)[0]`). -/
inductive SetOutcome where
  | ok : SetOutcome
  | errNotGlobal : String → SetOutcome
  | errNoResource : SetOutcome
  | errUnableToWrite : PreferenceScope → SetOutcome
deriving DecidableEq, Repr

/-- JS falsiness of the optional `resourceUri` string (`!resourceUri`):
absent or empty. -/
def noResource (resourceUri : Option String) : Bool :=
  (resourceUri.getD "") == ""

/-- `PreferenceServiceImpl.set`: pick the target scope (explicit scope, else
Workspace without a resourceUri, else Folder), validate, and delegate to the
target scope's provider. The second component records whether the provider's
`setPreference` was actually invoked. -/
def set (env : Env) (preferenceName : String) (value : JSVal)
    (scope : Option PreferenceScope) (resourceUri : Option String) :
    SetOutcome × Bool :=
  let resolvedScope :=
    match scope with
    | some s => s
    | none => if noResource resourceUri then .Workspace else .Folder
  if resolvedScope = .User
      && env.isSectionName ((jsSplitDot preferenceName).headD "") then
    (.errNotGlobal preferenceName, false)
  else if resolvedScope = .Folder && noResource resourceUri then
    (.errNoResource, false)
  else
    match env.providers resolvedScope with
    | some provider =>
        if provider.setPreference preferenceName value resourceUri then (.ok, true)
        else (.errUnableToWrite resolvedScope, true)
    | none => (.errUnableToWrite resolvedScope, false)

end PreferenceServiceImpl

/-- A raw per-provider change: `PreferenceProviderDataChange`. -/
structure PreferenceProviderDataChange where
  preferenceName : String
  newValue : JSVal := .undefinedVal
  oldValue : JSVal := .undefinedVal
  scope : PreferenceScope
  domain : Option (List String) := none

/-- A raw change batch as delivered to `reconcilePreferences`:
`{ default, languageSpecific }`. JS objects iterate keys in insertion order,
so the maps are association lists; `dflt` is the `default` field. -/
structure PreferenceProviderDataChanges where
  dflt : List PreferenceProviderDataChange
  languageSpecific : List (String × List PreferenceProviderDataChange)

namespace PreferenceServiceImpl

/-- `change.domain ? change.domain[0] : undefined`: note that an empty array
is truthy in JS, so a present-but-empty domain indexes to `undefined`. -/
def domainHead (domain : Option (List String)) : Option String :=
  domain.bind List.head?

/-- The descending-scope walk inside `tryAcceptChanges`, deciding what to do
with one raw change: suppress it (a more specific scope already defines a
value), accept it unchanged, reattribute a deletion to a lower scope's value,
or — at Default with no value left — recompute it with a full non-language
`get` (which may touch the cache and may even throw through `lookUp`). -/
def tryAcceptLoop (env : Env) (st : ServiceState)
    (change : PreferenceProviderDataChange) (language : Option String) :
    List PreferenceScope → Except Unit (Option PreferenceProviderDataChange × ServiceState)
  | [] => .ok (none, st)
  | scope :: rest =>
      if env.isValidInScope change.preferenceName scope then
        match env.providers scope with
        | some provider =>
            let value := provider.get change.preferenceName (domainHead change.domain) language
            if scope.toNat > change.scope.toNat && !value.isUndefined then
              .ok (none, st)
            else if scope = change.scope && !change.newValue.isUndefined then
              .ok (some change, st)
            else if scope.toNat < change.scope.toNat && change.newValue.isUndefined
                && !value.isUndefined then
              .ok (some { change with newValue := value, scope := scope }, st)
            else if scope = .Default && change.newValue.isUndefined && value.isUndefined then
              match get env st change.preferenceName .undefinedVal (domainHead change.domain) none with
              | (.ok v, st2) => .ok (some { change with newValue := v, scope := scope }, st2)
              | (.error e, _) => .error e
            else tryAcceptLoop env st change language rest
        | none => tryAcceptLoop env st change language rest
      else tryAcceptLoop env st change language rest

/-- The per-change decision of `tryAcceptChanges`: a name the schema admits at
Folder scope is accepted as-is; otherwise the descending walk decides. The
result is the (possibly reattributed) change to hand to `acceptChange`, or
`none` when the change is dropped. -/
def tryAcceptDecision (env : Env) (st : ServiceState)
    (change : PreferenceProviderDataChange) (language : Option String) :
    Except Unit (Option PreferenceProviderDataChange × ServiceState) :=
  if env.isValidInScope change.preferenceName .Folder then .ok (some change, st)
  else tryAcceptLoop env st change language PreferenceScope.getReversedScopes

/-- An observable step of a reconciliation pass, in program order:
a cache invalidation, the aggregate `onPreferencesChanged` firing (which also
covers the scope-partitioned configuration-change events fired inside
`triggerPeferencesChanged`), a per-name `onPreferenceChanged` firing, or a
per-language `onLanguagePreferencesChanged` firing. -/
inductive TraceEvent where
  | cacheDrop : String → TraceEvent
  | emitBatch : List String → TraceEvent
  | emitSingle : String → TraceEvent
  | emitLanguage : String → List String → TraceEvent
deriving DecidableEq, Repr

/-- Whether a trace step is a cache invalidation. -/
def TraceEvent.isDrop : TraceEvent → Bool
  | .cacheDrop _ => true
  | _ => false

/-- Whether a trace step is a consumer-facing event firing. -/
def TraceEvent.isEmit (e : TraceEvent) : Bool := !e.isDrop

/-- Whether a consumer-facing trace step announces a change of the given
preference name. -/
def TraceEvent.emitsName : TraceEvent → String → Bool
  | .cacheDrop _, _ => false
  | .emitBatch names, n => names.contains n
  | .emitSingle m, n => m == n
  | .emitLanguage _ names, n => names.contains n

/-- The accumulator of one reconciliation pass: the service state, the trace
of observable steps so far, and the two pending emission maps
(`changesToEmit` and `languageSpecificChangesToEmit`). -/
structure ReconcileAcc where
  svc : ServiceState
  trace : List TraceEvent
  changesToEmit : List (String × PreferenceProviderDataChange)
  languageChanges : List (String × List (String × PreferenceProviderDataChange))

/-- The `acceptChange` closure of `reconcilePreferences`: drop the whole cache
entry for the change's name, then record the change in the pending
language-agnostic or per-language emission map. -/
def acceptChange (acc : ReconcileAcc) (change : PreferenceProviderDataChange)
    (language : Option String) : ReconcileAcc :=
  let svc :=
    { acc.svc with cachedPreference := removeA change.preferenceName acc.svc.cachedPreference }
  let acc :=
    { acc with svc := svc, trace := acc.trace ++ [TraceEvent.cacheDrop change.preferenceName] }
  match language with
  | some lang =>
      let inner := (lookupA lang acc.languageChanges).getD []
      { acc with
        languageChanges :=
          insertA lang (insertA change.preferenceName change inner) acc.languageChanges }
  | none =>
      { acc with changesToEmit := insertA change.preferenceName change acc.changesToEmit }

/-- `PreferenceServiceImpl.tryAcceptChanges` over one change map: decide each
change in order and feed the accepted ones to `acceptChange`. The Bool
records whether a JS exception aborted the pass (escaping the whole
reconciliation before any event fires). -/
def tryAcceptChanges (env : Env) (acc : ReconcileAcc) (language : Option String) :
    List PreferenceProviderDataChange → Bool × ReconcileAcc
  | [] => (false, acc)
  | c :: rest =>
      match tryAcceptDecision env acc.svc c language with
      | .error _ => (true, acc)
      | .ok (none, st2) => tryAcceptChanges env { acc with svc := st2 } language rest
      | .ok (some c2, st2) =>
          tryAcceptChanges env (acceptChange { acc with svc := st2 } c2 language) language rest

/-- The per-language loop of `reconcilePreferences` over
`changes.languageSpecific`. -/
def reconcileLanguagePhase (env : Env) :
    List (String × List PreferenceProviderDataChange) → ReconcileAcc → Bool × ReconcileAcc
  | [], acc => (false, acc)
  | (lang, cs) :: rest, acc =>
      match tryAcceptChanges env acc (some lang) cs with
      | (true, acc2) => (true, acc2)
      | (false, acc2) => reconcileLanguagePhase env rest acc2

/-- `PreferenceServiceImpl.reconcilePreferences`: run `tryAcceptChanges` over
the language-agnostic map and then each language's map (every acceptance
invalidating its cache entry), and only afterwards fire the aggregate event
(when any name changed), the per-name events and the per-language events. An
exception escaping the accept phase aborts the pass with no event fired. -/
def reconcilePreferences (env : Env) (st : ServiceState)
    (changes : PreferenceProviderDataChanges) : List TraceEvent × ServiceState :=
  let acc0 : ReconcileAcc := { svc := st, trace := [], changesToEmit := [], languageChanges := [] }
  match tryAcceptChanges env acc0 none changes.dflt with
  | (true, acc) => (acc.trace, acc.svc)
  | (false, acc) =>
      match reconcileLanguagePhase env changes.languageSpecific acc with
      | (true, acc2) => (acc2.trace, acc2.svc)
      | (false, acc2) =>
          let changedPreferenceNames := acc2.changesToEmit.map (fun p => p.1)
          let trace := acc2.trace
            ++ (if changedPreferenceNames.length > 0
                then [TraceEvent.emitBatch changedPreferenceNames] else [])
            ++ changedPreferenceNames.map TraceEvent.emitSingle
            ++ acc2.languageChanges.map (fun p => TraceEvent.emitLanguage p.1 (p.2.map (fun q => q.1)))
          (trace, acc2.svc)

/-- A caller mutating, in place, the record it got back from `resolve`.
Because the source's `doResolve` returns the very object stored in the LRU
cache, writing through the returned reference rewrites the cache cell; the
`lookUp` literal is a fresh object, so mutating it touches no service state. -/
def mutateReturned (st : ServiceState) (r : ResolveReturn) (newValue : JSVal) :
    ServiceState :=
  match r with
  | .cached idx => { st with cells := st.cells.set idx { cellAt st idx with value := newValue } }
  | .fresh _ => st

end PreferenceServiceImpl

open PreferenceServiceImpl

/-- The value field of a `resolve` call's outcome (reading a cached cell in
the final state when the result is the cached object). -/
def resolveValueOf (p : Except Unit ResolveReturn × ServiceState) : Except Unit JSVal :=
  p.1.map (returnValue p.2)

/-- The scope field of a `resolve` call's outcome. -/
def resolveScopeOf (p : Except Unit ResolveReturn × ServiceState) :
    Except Unit (Option PreferenceScope) :=
  p.1.map (returnScope p.2)

/-- A provider defining nothing at all. -/
def undefProvider : PreferenceProvider :=
  { get := fun _ _ _ => .undefinedVal
    resolve := fun _ _ _ => {}
    setPreference := fun _ _ _ => false }

/-- Test environment for claim C1: every scope's provider defines nothing,
every name is valid everywhere. -/
def envC1 : Env :=
  { isValidInScope := fun _ _ => true
    providers := fun _ => some undefProvider
    isSectionName := fun _ => false }

/-- The state after `resolve("p", 1)` on a fresh service in `envC1`. -/
def stateC1 : ServiceState := (resolve envC1 emptyState "p" (.num 1) none none).2



/-- A User-scope provider answering `5` for the name "p". -/
def userProvider5 : PreferenceProvider :=
  { get := fun n _ _ => if n = "p" then .num 5 else .undefinedVal
    resolve := fun n _ _ => if n = "p" then { value := .num 5, configUri := some "user.json" } else {}
    setPreference := fun _ _ _ => false }

/-- Test environment for claim C2: "p" is valid at Default and User scope
only; the User provider defines `5`, the Default provider nothing. -/
def envC2 : Env :=
  { isValidInScope := fun _ s => s = .Default || s = .User
    providers := fun s =>
      if s = .User then some userProvider5
      else if s = .Default then some undefProvider
      else none
    isSectionName := fun _ => false }

/-- A Default-scope deletion of "p". -/
def chC2 : PreferenceProviderDataChange :=
  { preferenceName := "p", newValue := .undefinedVal, oldValue := .num 1, scope := .Default }



/-- Test environment for claim C4: "a" resolves to the record `{x: 1}` at
Default scope; no other name resolves. -/
def envC4 : Env :=
  { isValidInScope := fun _ _ => true
    providers := fun s =>
      if s = .Default then
        some { get := fun n _ _ => if n = "a" then .obj [("x", .num 1)] else .undefinedVal
               resolve := fun n _ _ =>
                 if n = "a" then { value := .obj [("x", .num 1)] } else {}
               setPreference := fun _ _ _ => false }
      else some undefProvider
    isSectionName := fun _ => false }



/-- Test environment for claim C7: the Default provider yields
`{a: 1, b: 2}` and the User provider `{b: 3, c: 4}` for "p". -/
def envC7 : Env :=
  { isValidInScope := fun _ _ => true
    providers := fun s =>
      if s = .Default then
        some { get := fun _ _ _ => .undefinedVal
               resolve := fun n _ _ =>
                 if n = "p" then
                   { value := .obj [("a", .num 1), ("b", .num 2)], configUri := some "d.json" }
                 else {}
               setPreference := fun _ _ _ => false }
      else if s = .User then
        some { get := fun _ _ _ => .undefinedVal
               resolve := fun n _ _ =>
                 if n = "p" then
                   { value := .obj [("b", .num 3), ("c", .num 4)], configUri := some "u.json" }
                 else {}
               setPreference := fun _ _ _ => false }
      else some undefProvider
    isSectionName := fun _ => false }


/-- The value a given scope contributes to the merge walk for a name: the
scope's provider's resolve value when the schema admits the name there and
the scope has a provider, else `undefined`. -/
def provValue (env : Env) (preferenceName : String) (resourceUri : Option String)
    (language : Option String) (s : PreferenceScope) : JSVal :=
  if env.isValidInScope preferenceName s then
    match env.providers s with
    | some p => (p.resolve preferenceName resourceUri language).value
    | none => .undefinedVal
  else .undefinedVal

/-- The configUri a given scope would report alongside its contribution. -/
def provConfigUri (env : Env) (preferenceName : String) (resourceUri : Option String)
    (language : Option String) (s : PreferenceScope) : Option String :=
  if env.isValidInScope preferenceName s then
    match env.providers s with
    | some p => (p.resolve preferenceName resourceUri language).configUri
    | none => none
  else none

/-- The languageSpecific flag a given scope's provider reports. -/
def provLangFlag (env : Env) (preferenceName : String) (resourceUri : Option String)
    (language : Option String) (s : PreferenceScope) : Bool :=
  if env.isValidInScope preferenceName s then
    match env.providers s with
    | some p => (p.resolve preferenceName resourceUri language).languageSpecific
    | none => false
  else false

/-- The last scope in a walk list whose provider contributes a defined value
(the scope the merge loop leaves in `result.scope`). -/
def lastContributor (env : Env) (preferenceName : String) (resourceUri : Option String)
    (language : Option String) : List PreferenceScope → Option PreferenceScope
  | [] => none
  | s :: rest =>
      match lastContributor env preferenceName resourceUri language rest with
      | some t => some t
      | none => if (provValue env preferenceName resourceUri language s).isUndefined then none else some s

/-- The scope `doResolveWithOutCache` reports, characterized: the last scope
of the language overlay walk contributing a defined language-specific value;
else the last scope of the plain walk contributing a defined value; else
Default. -/
def reportedScope (env : Env) (preferenceName : String) (resourceUri : Option String)
    (untilScope : Option PreferenceScope) (language : Option String) : PreferenceScope :=
  let scopes := PreferenceServiceImpl.walkScopes untilScope
  match (match language with
         | some _ => lastContributor env preferenceName resourceUri language scopes
         | none => none) with
  | some s => s
  | none =>
      match lastContributor env preferenceName resourceUri none scopes with
      | some s => s
      | none => .Default

/-- The configUri `doResolveWithOutCache` reports, characterized in the same
way as `reportedScope`. -/
def reportedConfigUri (env : Env) (preferenceName : String) (resourceUri : Option String)
    (untilScope : Option PreferenceScope) (language : Option String) : Option String :=
  let scopes := PreferenceServiceImpl.walkScopes untilScope
  match (match language with
         | some _ => lastContributor env preferenceName resourceUri language scopes
         | none => none) with
  | some s => provConfigUri env preferenceName resourceUri language s
  | none =>
      match lastContributor env preferenceName resourceUri none scopes with
      | some s => provConfigUri env preferenceName resourceUri none s
      | none => none

/-- Test environment for claim C5: both the Default and the User provider
contribute the same number `5` for "p", with distinct backing files. -/
def envC5 : Env :=
  { isValidInScope := fun _ _ => true
    providers := fun s =>
      if s = .Default then
        some { get := fun _ _ _ => .undefinedVal
               resolve := fun n _ _ =>
                 if n = "p" then { value := .num 5, configUri := some "d.json" } else {}
               setPreference := fun _ _ _ => false }
      else if s = .User then
        some { get := fun _ _ _ => .undefinedVal
               resolve := fun n _ _ =>
                 if n = "p" then { value := .num 5, configUri := some "u.json" } else {}
               setPreference := fun _ _ _ => false }
      else some undefProvider
    isSectionName := fun _ => false }

/-- Test environment for claim C6's witness: Default contributes `1`,
User contributes `2` for "p". -/
def envC6 : Env :=
  { isValidInScope := fun _ _ => true
    providers := fun s =>
      if s = .Default then
        some { get := fun _ _ _ => .undefinedVal
               resolve := fun n _ _ => if n = "p" then { value := .num 1 } else {}
               setPreference := fun _ _ _ => false }
      else if s = .User then
        some { get := fun _ _ _ => .undefinedVal
               resolve := fun n _ _ => if n = "p" then { value := .num 2 } else {}
               setPreference := fun _ _ _ => false }
      else some undefProvider
    isSectionName := fun _ => false }


/-- Test environment for claim C8's witness: "files" is a reserved section
name; every provider rejects writes. -/
def envC8 : Env :=
  { isValidInScope := fun _ _ => true
    providers := fun s => if s = .Folder then none else some undefProvider
    isSectionName := fun n => n = "files" }

/-- Test environment for claim C3: the Default provider yields the record
`{a: 1}` for "p". -/
def envC3 : Env :=
  { isValidInScope := fun _ _ => true
    providers := fun s =>
      if s = .Default then
        some { get := fun _ _ _ => .undefinedVal
               resolve := fun n _ _ => if n = "p" then { value := .obj [("a", .num 1)] } else {}
               setPreference := fun _ _ _ => false }
      else some undefProvider
    isSectionName := fun _ => false }

/-- The state after the first `resolve("p")` in `envC3`. -/
def stC3 : ServiceState := (resolve envC3 emptyState "p" .undefinedVal none none).2

/-- Test environment for claim C9's witness: "p" is valid at Default and User
scope, the User provider defines `5`. -/
def envC9 : Env :=
  { isValidInScope := fun _ s => s = .Default || s = .User
    providers := fun s =>
      if s = .User then some userProvider5
      else if s = .Default then some undefProvider
      else none
    isSectionName := fun _ => false }

/-- A User-scope update of "p" to `9`. -/
def chC9 : PreferenceProviderDataChange :=
  { preferenceName := "p", newValue := .num 9, oldValue := .num 5, scope := .User }

/-- The value the pure merge walk produces for the `i`-part dotted prefix of
a split name (what `doResolve` computes for that prefix on a cache miss with
no resource, no scope ceiling and no language, as `lookUp` calls it). -/
def prefixValue (env : Env) (parts : List String) (i : Nat) : JSVal :=
  (doResolveWithOutCache env (prefixJoin parts i) none none none).value

/-- Whether the service has no cache entry at all for a name. -/
def freshFor (st : ServiceState) (name : String) : Bool :=
  (lookupA name st.cachedPreference).isNone

/-- Test environment for claim C10's witness: "a.b" resolves to `0` (defined
but falsy) and "a" resolves to `{c: 7}` at Default scope. -/
def envC10 : Env :=
  { isValidInScope := fun _ _ => true
    providers := fun s =>
      if s = .Default then
        some { get := fun _ _ _ => .undefinedVal
               resolve := fun n _ _ =>
                 if n = "a.b" then { value := .num 0 }
                 else if n = "a" then { value := .obj [("c", .num 7)] }
                 else {}
               setPreference := fun _ _ _ => false }
      else some undefProvider
    isSectionName := fun _ => false }


/-- The invariant of a reconciliation pass: every preference name pending in
an emission map already has its cache-invalidation step in the trace. -/
def ReconcileInv (acc : ReconcileAcc) : Prop :=
  (∀ p ∈ acc.changesToEmit, TraceEvent.cacheDrop p.1 ∈ acc.trace)
  ∧ (∀ q ∈ acc.languageChanges, ∀ p ∈ q.2, TraceEvent.cacheDrop p.1 ∈ acc.trace)


/-- The largest index `k` in `[1, i]` whose dotted prefix has a truthy merged
value — the index at which `lookUp`'s descending container search stops. -/
def largestTruthy (env : Env) (parts : List String) : Nat → Option Nat
  | 0 => none
  | i + 1 =>
      if (prefixValue env parts (i + 1)).truthy then some (i + 1)
      else largestTruthy env parts i

/-! ## Theorems -/

mutual

theorem deepClone_eq : (v : JSVal) → deepClone v = v
  | .undefinedVal => rfl
  | .null => rfl
  | .bool _ => rfl
  | .num _ => rfl
  | .str _ => rfl
  | .obj fields => by
      rw [deepClone, deepCloneFields_eq fields]

theorem deepCloneFields_eq : (fs : List (String × JSVal)) → deepCloneFields fs = fs
  | [] => rfl
  | (k, v) :: rest => by
      rw [deepCloneFields, deepClone_eq v, deepCloneFields_eq rest]

end

/-- Claim C1 (code bug): the substituted default IS stored. After
`resolve("p", 1)` finds no provider-derived value, the code mutates the cached
`ResolveResult` in place (`result.value = defaultValue`), so the cache entry
for "p" holds `1`, and a later `resolve("p")` with no default returns `1`
instead of the provider-derived `undefined` the claim promises. -/
theorem c1_default_is_cached :
    (resolve envC1 emptyState "p" (.num 1) none none).1 = .ok (.cached 0)
      ∧ (cellAt stateC1 0).value = .num 1
      ∧ resolveValueOf (resolve envC1 stateC1 "p" .undefinedVal none none) = .ok (.num 1) :=
  ⟨rfl, rfl, rfl⟩

/-- Claim C2 counterexample: reconciling a batch holding a Default-scope
deletion of "p" while the User provider still defines `5` emits NOTHING — the
trace of the pass is empty (the walk stops at the `scope > change.scope &&
value !== undefined` branch without accepting), whereas the claim demands an
emitted change reattributed to User scope carrying `5`. -/
theorem c2_counterexample :
    (reconcilePreferences envC2 emptyState { dflt := [chC2], languageSpecific := [] }).1 = [] :=
  rfl

/-- Claim C4 (code bug): `get("a.b.c")` throws. The dotted-path fallback
accepts the truthy prefix "a" (`{x: 1}`), the first key access `["b"]` yields
`undefined`, and the unguarded `while` loop then evaluates `undefined["c"]`,
a TypeError that escapes `lookUp`, `resolve` and `get` — the claim promises
`undefined` instead of an exception. -/
theorem c4_lookup_throws :
    (get envC4 emptyState "a.b.c" .undefinedVal none none).1 = .error () :=
  rfl

/-- Claim C7: with Default = `{a:1, b:2}` and User = `{b:3, c:4}`, `resolve`
returns the key-wise merged record `{a:1, b:3, c:4}` — keys only in the lower
scope survive, keys in both take the higher scope's value — with
`scope = User`. -/
theorem c7_record_merge :
    resolveValueOf (resolve envC7 emptyState "p" .undefinedVal none none)
        = .ok (.obj [("a", .num 1), ("b", .num 3), ("c", .num 4)])
      ∧ resolveScopeOf (resolve envC7 emptyState "p" .undefinedVal none none)
        = .ok (some .User) :=
  ⟨rfl, rfl⟩


theorem merge_undef_left (b : JSVal) : PreferenceProvider.merge .undefinedVal b = b := by
  cases b <;> rfl

theorem merge_left_not_obj (a b : JSVal) (h : a.isObj = false) :
    PreferenceProvider.merge a b = b := by
  cases a <;> first | (cases b <;> rfl) | simp [JSVal.isObj] at h

theorem mergeStep_eq (env : Env) (preferenceName : String) (resourceUri : Option String)
    (language : Option String) (init : PreferenceResolveResult) (s : PreferenceScope) :
    mergeStep env preferenceName resourceUri language init s =
      if (provValue env preferenceName resourceUri language s).isUndefined then init
      else
        { init with
          configUri := provConfigUri env preferenceName resourceUri language s
          value := PreferenceProvider.merge init.value
            (provValue env preferenceName resourceUri language s)
          scope := some s
          languageSpecific :=
            match language with
            | some _ => init.languageSpecific || provLangFlag env preferenceName resourceUri language s
            | none => init.languageSpecific } := by
  unfold mergeStep provValue provConfigUri provLangFlag
  cases hval : env.isValidInScope preferenceName s
  · simp [hval, JSVal.isUndefined]
  · simp only [hval]
    cases hp : env.providers s
    · simp [JSVal.isUndefined]
    · simp only []
      cases hu : ((PreferenceProvider.resolve _ preferenceName resourceUri language).value).isUndefined
      · simp [hu]
      · simp [hu]

theorem foldl_mergeStep (env : Env) (preferenceName : String) (resourceUri : Option String)
    (language : Option String) (l : List PreferenceScope) :
    ∀ init : PreferenceResolveResult,
      ((l.foldl (mergeStep env preferenceName resourceUri language) init).scope
        = match lastContributor env preferenceName resourceUri language l with
          | some t => some t
          | none => init.scope)
      ∧ ((l.foldl (mergeStep env preferenceName resourceUri language) init).configUri
        = match lastContributor env preferenceName resourceUri language l with
          | some t => provConfigUri env preferenceName resourceUri language t
          | none => init.configUri) := by
  induction l with
  | nil => intro init; simp [lastContributor]
  | cons s rest ih =>
      intro init
      simp only [List.foldl_cons, lastContributor]
      rw [mergeStep_eq]
      cases hval : (provValue env preferenceName resourceUri language s).isUndefined
      · rw [if_neg Bool.false_ne_true]
        refine ⟨?_, ?_⟩
        · rw [(ih _).1]
          cases hlc : lastContributor env preferenceName resourceUri language rest <;> simp [hlc]
        · rw [(ih _).2]
          cases hlc : lastContributor env preferenceName resourceUri language rest <;> simp [hlc]
      · rw [if_pos rfl]
        refine ⟨?_, ?_⟩
        · rw [(ih init).1]
          cases hlc : lastContributor env preferenceName resourceUri language rest <;> simp [hlc]
        · rw [(ih init).2]
          cases hlc : lastContributor env preferenceName resourceUri language rest <;> simp [hlc]

/-- Claim C5 counterexample: in `envC5` the Default scope contributes `5`
(value becomes `5`), then the User scope contributes the same `5` — the merge
leaves the accumulated value unchanged (third conjunct) — yet the resolved
result reports `scope = User` and User's configUri, where the claim requires
the report to stay at Default, the last scope that CHANGED the value. -/
theorem c5_counterexample :
    (doResolveWithOutCache envC5 "p" none none none).scope = some .User
      ∧ (doResolveWithOutCache envC5 "p" none none none).configUri = some "u.json"
      ∧ PreferenceProvider.merge (.num 5) (.num 5) = .num 5 :=
  ⟨rfl, rfl, rfl⟩

/-- Claim C5 as amended: `scope` (and `configUri`) are updated whenever a
scope's provider contributes a defined value, even when merging leaves the
accumulated value unchanged — the reported scope is the last contributing
scope of the walk (language overlay last), Default when none contributes. -/
theorem c5_scope_is_last_contributor (env : Env) (preferenceName : String)
    (resourceUri : Option String) (untilScope : Option PreferenceScope)
    (language : Option String) :
    (doResolveWithOutCache env preferenceName resourceUri untilScope language).scope
        = some (reportedScope env preferenceName resourceUri untilScope language)
      ∧ (doResolveWithOutCache env preferenceName resourceUri untilScope language).configUri
        = reportedConfigUri env preferenceName resourceUri untilScope language := by
  unfold doResolveWithOutCache reportedScope reportedConfigUri
  cases language with
  | none =>
      obtain ⟨hs, hc⟩ :=
        foldl_mergeStep env preferenceName resourceUri none (walkScopes untilScope)
          { scope := some .Default }
      simp only []
      rw [hs, hc]
      cases hlc : lastContributor env preferenceName resourceUri none (walkScopes untilScope) <;>
        simp [hlc]
  | some lang =>
      obtain ⟨hs1, hc1⟩ :=
        foldl_mergeStep env preferenceName resourceUri none (walkScopes untilScope)
          { scope := some .Default }
      obtain ⟨hs2, hc2⟩ :=
        foldl_mergeStep env preferenceName resourceUri (some lang) (walkScopes untilScope)
          ((walkScopes untilScope).foldl
            (mergeStep env preferenceName resourceUri none) { scope := some .Default })
      simp only []
      rw [hs2, hc2]
      cases hlc2 : lastContributor env preferenceName resourceUri (some lang) (walkScopes untilScope) with
      | some t => simp
      | none =>
          rw [hs1, hc1]
          cases hlc1 : lastContributor env preferenceName resourceUri none (walkScopes untilScope) <;>
            simp [hlc1]

theorem resolve_emptyState (env : Env) (preferenceName : String) (defaultValue : JSVal)
    (resourceUri : Option String) (language : Option String)
    (h : (doResolveWithOutCache env preferenceName resourceUri none language).value.isUndefined
          = false) :
    resolve env emptyState preferenceName defaultValue resourceUri language
      = (.ok (.cached 0),
         { cells := [doResolveWithOutCache env preferenceName resourceUri none language]
           cachedPreference :=
             [(preferenceName, [(cacheHash language none resourceUri, 0)])] }) := by
  unfold resolve doResolve emptyState
  simp [lookupA, insertA, cellAt, h]

/-- Claim C6: when exactly two scopes s1 < s2 contribute defined non-record
values v1 and v2 for a name (every other scope contributes nothing), `resolve`
on a fresh service returns v2 — the higher scope wins outright for non-record
values — for every resource URI and every caller default. -/
theorem c6_highest_scope_wins (env : Env) (preferenceName : String)
    (resourceUri : Option String) (defaultValue v1 v2 : JSVal)
    (s1 s2 : PreferenceScope)
    (h12 : s1.toNat < s2.toNat)
    (h1u : v1.isUndefined = false) (h1o : v1.isObj = false)
    (h2u : v2.isUndefined = false) (_h2o : v2.isObj = false)
    (hcontrib : ∀ s, provValue env preferenceName resourceUri none s
      = if s = s1 then v1 else if s = s2 then v2 else .undefinedVal) :
    resolveValueOf (resolve env emptyState preferenceName defaultValue resourceUri none)
      = .ok v2 := by
  have hval : (doResolveWithOutCache env preferenceName resourceUri none none).value = v2 := by
    unfold doResolveWithOutCache walkScopes PreferenceScope.getScopes
    simp only [List.foldl_cons, List.foldl_nil, mergeStep_eq, hcontrib]
    cases s1 <;> cases s2 <;>
      first
      | exact absurd h12 (by decide)
      | (simp_all [JSVal.isUndefined, merge_undef_left, merge_left_not_obj _ _ h1o,
          deepClone_eq])
  rw [resolve_emptyState env preferenceName defaultValue resourceUri none (by rw [hval]; exact h2u)]
  simp [resolveValueOf, returnValue, cellAt, hval, Except.map]

/-- Witness for claim C6: in `envC6` (Default contributes 1, User contributes
2 for "p"), `resolve` returns 2. -/
theorem c6_witness :
    PreferenceScope.Default.toNat < PreferenceScope.User.toNat
      ∧ resolveValueOf (resolve envC6 emptyState "p" .undefinedVal none none) = .ok (.num 2) :=
  ⟨by decide,
   c6_highest_scope_wins envC6 "p" none .undefinedVal (.num 1) (.num 2) .Default .User
     (by decide) rfl rfl rfl rfl (by intro s; cases s <;> rfl)⟩

/-- Claim C8: write routing and validation of `set`. `target` is the scope
the claim's rule resolves: the explicit scope when given, else Workspace when
no resourceUri is supplied, else Folder. A Folder-targeted write without a
resourceUri fails with the no-resource error and never reaches the provider;
a User-targeted write of a name whose top-level section is reserved fails with
the section error and never reaches the provider; otherwise a missing
provider, or a provider reporting failure, makes `set` fail with the error
naming the target scope. -/
theorem c8_set_validation (env : Env) (preferenceName : String) (value : JSVal)
    (scope : Option PreferenceScope) (resourceUri : Option String)
    (target : PreferenceScope)
    (htarget : target = match scope with
      | some s => s
      | none => if noResource resourceUri then PreferenceScope.Workspace
                else PreferenceScope.Folder) :
    ((decide (target = .Folder) && noResource resourceUri) = true →
      PreferenceServiceImpl.set env preferenceName value scope resourceUri = (.errNoResource, false))
    ∧ ((decide (target = .User)
          && env.isSectionName ((jsSplitDot preferenceName).headD "")) = true →
      PreferenceServiceImpl.set env preferenceName value scope resourceUri = (.errNotGlobal preferenceName, false))
    ∧ ((decide (target = .User)
          && env.isSectionName ((jsSplitDot preferenceName).headD "")) = false →
      (decide (target = .Folder) && noResource resourceUri) = false →
      env.providers target = none →
      PreferenceServiceImpl.set env preferenceName value scope resourceUri = (.errUnableToWrite target, false))
    ∧ (∀ p : PreferenceProvider,
      (decide (target = .User)
          && env.isSectionName ((jsSplitDot preferenceName).headD "")) = false →
      (decide (target = .Folder) && noResource resourceUri) = false →
      env.providers target = some p →
      p.setPreference preferenceName value resourceUri = false →
      PreferenceServiceImpl.set env preferenceName value scope resourceUri = (.errUnableToWrite target, true)) := by
  unfold PreferenceServiceImpl.set
  rw [← htarget]
  refine ⟨?_, ?_, ?_, ?_⟩
  · intro h
    obtain ⟨hF, hNR⟩ := Bool.and_eq_true _ _ |>.mp h
    rw [decide_eq_true_eq] at hF
    subst hF
    rw [if_neg (by simp), if_pos h]
  · intro h
    obtain ⟨hU, hSec⟩ := Bool.and_eq_true _ _ |>.mp h
    rw [decide_eq_true_eq] at hU
    subst hU
    rw [if_pos h]
  · intro h1 h2 hp
    rw [if_neg (fun hc => Bool.false_ne_true (h1 ▸ hc)),
        if_neg (fun hc => Bool.false_ne_true (h2 ▸ hc)), hp]
  · intro p h1 h2 hp hw
    rw [if_neg (fun hc => Bool.false_ne_true (h1 ▸ hc)),
        if_neg (fun hc => Bool.false_ne_true (h2 ▸ hc)), hp]
    simp [hw]

/-- Witness for claim C8: `set("editor.fontSize", 14, Folder)` with no
resourceUri fails with the no-resource error without reaching a provider; in
`envC8`, `set("files.exclude", v, User)` fails with the section error. -/
theorem c8_witness :
    (decide ((PreferenceScope.Folder) = .Folder) && noResource none) = true
      ∧ PreferenceServiceImpl.set envC8 "editor.fontSize" (.num 14) (some .Folder) none
          = (.errNoResource, false)
      ∧ (decide ((PreferenceScope.User) = .User)
          && envC8.isSectionName ((jsSplitDot "files.exclude").headD "")) = true
      ∧ PreferenceServiceImpl.set envC8 "files.exclude" (.bool true) (some .User) none
          = (.errNotGlobal "files.exclude", false) :=
  ⟨rfl,
   (c8_set_validation envC8 "editor.fontSize" (.num 14) (some .Folder) none .Folder rfl).1 rfl,
   rfl,
   (c8_set_validation envC8 "files.exclude" (.bool true) (some .User) none .User rfl).2.1 rfl⟩

/-- Claim C2 as amended: a Default-scope deletion (newValue undefined) of a
name that is not Folder-valid and still has a defined User-scope value is
SUPPRESSED by the reconciler — the descending walk stops at the
more-specific-scope-defines-a-value branch and accepts nothing, so no change
is emitted for the name (reattribution-with-value only happens for deletions
at a HIGHER scope falling through to a defined lower-scope value). -/
theorem c2_default_deletion_shadowed (env : Env) (st : ServiceState)
    (ch : PreferenceProviderDataChange) (p : PreferenceProvider) (v : JSVal)
    (hFolder : env.isValidInScope ch.preferenceName .Folder = false)
    (hUserValid : env.isValidInScope ch.preferenceName .User = true)
    (hUserProv : env.providers .User = some p)
    (hUserVal : p.get ch.preferenceName (domainHead ch.domain) none = v)
    (hv : v.isUndefined = false)
    (hscope : ch.scope = .Default) :
    tryAcceptDecision env st ch none = .ok (none, st) := by
  unfold tryAcceptDecision
  rw [if_neg (fun hc => Bool.false_ne_true (hFolder ▸ hc))]
  unfold PreferenceScope.getReversedScopes
  rw [tryAcceptLoop, if_neg (fun hc => Bool.false_ne_true (hFolder ▸ hc))]
  rw [tryAcceptLoop]
  have hUser : tryAcceptLoop env st ch none [.User, .Default] = .ok (none, st) := by
    rw [tryAcceptLoop, if_pos hUserValid, hUserProv]
    simp only [hUserVal, hscope]
    rw [if_pos (by rw [hv]; decide)]
  cases hWV : env.isValidInScope ch.preferenceName .Workspace
  · rw [if_neg (by decide)]
    exact hUser
  · rw [if_pos rfl]
    cases hWP : env.providers .Workspace
    · exact hUser
    · simp only []
      cases hqv : (PreferenceProvider.get _ ch.preferenceName (domainHead ch.domain) none).isUndefined
      · rw [if_pos (by rw [hscope]; decide)]
      · rw [if_neg (by simp)]
        rw [if_neg (by rw [hscope]; simp)]
        rw [if_neg (by rw [hscope]; simp)]
        rw [if_neg (by simp)]
        exact hUser

/-- Witness for claim C2's amended statement: in `envC2` (name not Folder
valid, User provider defines 5), the Default-scope deletion `chC2` is
suppressed. -/
theorem c2_witness :
    envC2.isValidInScope "p" .Folder = false
      ∧ envC2.isValidInScope "p" .User = true
      ∧ envC2.providers .User = some userProvider5
      ∧ userProvider5.get "p" (domainHead chC2.domain) none = .num 5
      ∧ (JSVal.num 5).isUndefined = false
      ∧ chC2.scope = .Default
      ∧ tryAcceptDecision envC2 emptyState chC2 none = .ok (none, emptyState) :=
  ⟨rfl, rfl, rfl, rfl, rfl, rfl,
   c2_default_deletion_shadowed envC2 emptyState chC2 userProvider5 (.num 5)
     rfl rfl rfl rfl rfl rfl⟩

theorem lookupA_insertA_self {α : Type} (k : String) (v : α) (l : List (String × α)) :
    lookupA k (insertA k v l) = some v := by
  induction l with
  | nil => simp [insertA, lookupA]
  | cons kv rest ih =>
      cases h : kv.1 == k <;> simp [insertA, lookupA, h, ih]

theorem getD_set_self {α : Type} (l : List α) (i : Nat) (x d : α) (h : i < l.length) :
    (l.set i x).getD i d = x := by
  induction l generalizing i with
  | nil => simp at h
  | cons a rest ih =>
      cases i with
      | zero => simp
      | succ n =>
          simp only [List.set_cons_succ, List.getD_cons_succ]
          exact ih n (by simpa using h)

theorem doResolve_cache_key (env : Env) (st : ServiceState) (preferenceName : String)
    (defaultValue : JSVal) (resourceUri : Option String)
    (untilScope : Option PreferenceScope) (language : Option String) :
    lookupA (cacheHash language untilScope resourceUri)
        ((lookupA preferenceName
          (doResolve env st preferenceName defaultValue resourceUri untilScope
            language).2.cachedPreference).getD [])
      = some (doResolve env st preferenceName defaultValue resourceUri untilScope
          language).1 := by
  unfold doResolve
  simp only []
  simp only [apply_ite ServiceState.cachedPreference]
  cases hk : lookupA (cacheHash language untilScope resourceUri)
      ((lookupA preferenceName
        (if (lookupA preferenceName st.cachedPreference).isSome = true then st.cachedPreference
         else st.cachedPreference ++ [(preferenceName, [])])).getD []) with
  | some i => simp [hk, apply_ite ServiceState.cachedPreference]
  | none => simp [hk, apply_ite ServiceState.cachedPreference, lookupA_insertA_self]

theorem doResolve_hit (env : Env) (st : ServiceState) (preferenceName : String)
    (defaultValue : JSVal) (resourceUri : Option String)
    (untilScope : Option PreferenceScope) (language : Option String) (i : Nat)
    (h : lookupA (cacheHash language untilScope resourceUri)
          ((lookupA preferenceName st.cachedPreference).getD []) = some i)
    (hw : (cellAt st i).value.isUndefined = false) :
    doResolve env st preferenceName defaultValue resourceUri untilScope language
      = (i, st) := by
  have hsome : (lookupA preferenceName st.cachedPreference).isSome = true := by
    cases ho : lookupA preferenceName st.cachedPreference
    · rw [ho] at h
      simp [lookupA] at h
    · simp
  unfold doResolve
  simp only [hsome, if_true]
  unfold cellAt at hw
  have hw2 : (st.cells[i]?.getD default).value.isUndefined = false := by
    rw [← List.getD_eq_getElem?_getD]
    exact hw
  simp [h, hw2]

/-- Claim C3 counterexample: in `envC3` the first `resolve("p")` returns the
record `{a: 1}`; mutating that returned record in place to `{a: 99}` rewrites
the cache cell (the returned object IS the cached object), and the next
`resolve("p")` of the same key returns the mutated `{a: 99}` — not the
original value the claim promises. -/
theorem c3_counterexample :
    resolveValueOf (resolve envC3 emptyState "p" .undefinedVal none none)
        = .ok (.obj [("a", .num 1)])
      ∧ resolveValueOf
          (resolve envC3 (mutateReturned stC3 (.cached 0) (.obj [("a", .num 99)]))
            "p" .undefinedVal none none)
        = .ok (.obj [("a", .num 99)])
      ∧ JSVal.obj [("a", .num 99)] ≠ JSVal.obj [("a", .num 1)] :=
  ⟨rfl, rfl, by simp⟩

/-- Claim C3 as amended: the deep clone happens once, when the merged value is
computed and stored; the object `resolve` hands back on the cached path IS the
cache cell, so a caller mutating the returned record rewrites the cached
state, and every subsequent resolve of the same key returns the mutated
value, not the original. -/
theorem c3_returned_aliases_cache (env : Env) (st st1 : ServiceState)
    (preferenceName : String) (defaultValue : JSVal) (resourceUri : Option String)
    (language : Option String) (i : Nat) (w : JSVal)
    (hres : resolve env st preferenceName defaultValue resourceUri language
      = (.ok (.cached i), st1))
    (hw : w.isUndefined = false) :
    resolveValueOf
        (resolve env (mutateReturned st1 (.cached i) w) preferenceName defaultValue
          resourceUri language)
      = .ok w := by
  have hkey := doResolve_cache_key env st preferenceName defaultValue resourceUri none language
  unfold resolve at hres
  simp only [] at hres
  cases hcell : (cellAt (doResolve env st preferenceName defaultValue resourceUri none
      language).2 (doResolve env st preferenceName defaultValue resourceUri none
      language).1).value.isUndefined with
  | true =>
      rw [if_pos hcell] at hres
      exfalso
      cases hl : (lookUp env (doResolve env st preferenceName defaultValue resourceUri none
          language).2 preferenceName).1 with
      | ok v => rw [hl] at hres; simp [Except.map] at hres
      | error e => rw [hl] at hres; simp [Except.map] at hres
  | false =>
      rw [if_neg (fun hc => Bool.false_ne_true (hcell ▸ hc))] at hres
      rw [Prod.mk.injEq] at hres
      obtain ⟨hi, hst⟩ := hres
      rw [Except.ok.injEq] at hi
      have hi2 : (doResolve env st preferenceName defaultValue resourceUri none language).1 = i := by
        cases hi
        rfl
      rw [hi2, hst] at hkey
      rw [hi2, hst] at hcell
      have hlen : i < st1.cells.length := by
        by_contra hge
        push_neg at hge
        have hdf : cellAt st1 i = default := by
          unfold cellAt
          exact List.getD_eq_default _ _ hge
        have htru : (default : PreferenceResolveResult).value.isUndefined = true := rfl
        rw [hdf, htru] at hcell
        exact Bool.false_ne_true hcell.symm
      have hmaps : (mutateReturned st1 (.cached i) w).cachedPreference
          = st1.cachedPreference := rfl
      have hcell2 : cellAt (mutateReturned st1 (.cached i) w) i
          = { cellAt st1 i with value := w } := by
        unfold cellAt mutateReturned
        exact getD_set_self _ _ _ _ hlen
      unfold resolve
      rw [doResolve_hit env (mutateReturned st1 (.cached i) w) preferenceName defaultValue
            resourceUri none language i (by rw [hmaps]; exact hkey)
            (by rw [hcell2]; exact hw)]
      simp [hcell2, hw, resolveValueOf, returnValue, Except.map]

/-- Witness for claim C3's amended statement, at the concrete `envC3` input. -/
theorem c3_witness :
    resolve envC3 emptyState "p" .undefinedVal none none = (.ok (.cached 0), stC3)
      ∧ (JSVal.obj [("a", .num 99)]).isUndefined = false
      ∧ resolveValueOf
          (resolve envC3 (mutateReturned stC3 (.cached 0) (.obj [("a", .num 99)]))
            "p" .undefinedVal none none)
        = .ok (.obj [("a", .num 99)]) :=
  ⟨rfl, rfl,
   c3_returned_aliases_cache envC3 emptyState stC3 "p" .undefinedVal none none 0
     (.obj [("a", .num 99)]) rfl rfl⟩

theorem mem_insertA {α : Type} (k : String) (v : α) (l : List (String × α))
    (p : String × α) (h : p ∈ insertA k v l) : p = (k, v) ∨ p ∈ l := by
  induction l with
  | nil => simpa [insertA] using h
  | cons kv rest ih =>
      unfold insertA at h
      cases hk : kv.1 == k
      · rw [hk] at h
        simp only [Bool.false_eq_true, if_false, List.mem_cons] at h
        rcases h with rfl | h2
        · exact Or.inr (List.mem_cons_self _ _)
        · rcases ih h2 with h3 | h3
          · exact Or.inl h3
          · exact Or.inr (List.mem_cons_of_mem _ h3)
      · rw [hk] at h
        simp only [if_true, List.mem_cons] at h
        rcases h with rfl | h2
        · exact Or.inl rfl
        · exact Or.inr (List.mem_cons_of_mem _ h2)

theorem lookupA_mem {α : Type} (k : String) (l : List (String × α)) (v : α)
    (h : lookupA k l = some v) : (k, v) ∈ l := by
  induction l with
  | nil => simp [lookupA] at h
  | cons kv rest ih =>
      unfold lookupA at h
      cases hk : kv.1 == k
      · rw [hk] at h
        simp only [Bool.false_eq_true, if_false] at h
        exact List.mem_cons_of_mem _ (ih h)
      · rw [hk] at h
        simp only [if_true, Option.some.injEq] at h
        have hk2 : kv.1 = k := by
          have := hk
          exact eq_of_beq this
        have : (k, v) = kv := by
          cases kv
          simp only [Prod.mk.injEq]
          exact ⟨hk2.symm, h.symm⟩
        rw [this]
        exact List.mem_cons_self _ _

theorem take_subset_take_of_le {α : Type} (l : List α) (m n : Nat) (h : m ≤ n) :
    l.take m ⊆ l.take n := by
  induction l generalizing m n with
  | nil => simp
  | cons a rest ih =>
      cases m with
      | zero => simp
      | succ m2 =>
          cases n with
          | zero => exact absurd h (by omega)
          | succ n2 =>
              simp only [List.take_succ_cons]
              intro x hx
              rcases List.mem_cons.mp hx with rfl | hx2
              · exact List.mem_cons_self _ _
              · exact List.mem_cons_of_mem _ (ih m2 n2 (by omega) hx2)

theorem acceptChange_trace (acc : ReconcileAcc) (c : PreferenceProviderDataChange)
    (language : Option String) :
    (acceptChange acc c language).trace
      = acc.trace ++ [TraceEvent.cacheDrop c.preferenceName] := by
  unfold acceptChange
  cases language <;> rfl

theorem acceptChange_inv (acc : ReconcileAcc) (c : PreferenceProviderDataChange)
    (language : Option String) (h : ReconcileInv acc) :
    ReconcileInv (acceptChange acc c language) := by
  obtain ⟨h1, h2⟩ := h
  unfold ReconcileInv acceptChange
  cases language with
  | none =>
      refine ⟨?_, ?_⟩
      · intro p hp
        simp only [] at hp
        rcases mem_insertA _ _ _ _ hp with rfl | hp2
        · simp
        · exact List.mem_append_left _ (h1 p hp2)
      · intro q hq p hp
        simp only [] at hq
        exact List.mem_append_left _ (h2 q hq p hp)
  | some lg =>
      refine ⟨?_, ?_⟩
      · intro p hp
        simp only [] at hp
        exact List.mem_append_left _ (h1 p hp)
      · intro q hq p hp
        simp only [] at hq
        rcases mem_insertA _ _ _ _ hq with rfl | hq2
        · simp only [] at hp
          rcases mem_insertA _ _ _ _ hp with rfl | hp2
          · simp
          · cases hl : lookupA lg acc.languageChanges with
            | none => rw [hl] at hp2; simp at hp2
            | some inner0 =>
                rw [hl] at hp2
                exact List.mem_append_left _ (h2 (lg, inner0) (lookupA_mem _ _ _ hl) p hp2)
        · exact List.mem_append_left _ (h2 q hq2 p hp)

theorem tryAcceptChanges_inv (env : Env) (language : Option String) :
    ∀ (cs : List PreferenceProviderDataChange) (acc : ReconcileAcc),
      ReconcileInv acc →
      ReconcileInv (tryAcceptChanges env acc language cs).2
        ∧ ∃ t, (tryAcceptChanges env acc language cs).2.trace = acc.trace ++ t
            ∧ ∀ e ∈ t, e.isDrop = true := by
  intro cs
  induction cs with
  | nil =>
      intro acc h
      exact ⟨h, [], by simp [tryAcceptChanges], by simp⟩
  | cons c rest ih =>
      intro acc h
      unfold tryAcceptChanges
      cases hd : tryAcceptDecision env acc.svc c language with
      | error e => exact ⟨h, [], by simp, by simp⟩
      | ok p =>
          obtain ⟨oc, st2⟩ := p
          cases oc with
          | none =>
              have h2 : ReconcileInv { acc with svc := st2 } := h
              obtain ⟨hinv, t, ht, hdrop⟩ := ih { acc with svc := st2 } h2
              exact ⟨hinv, t, ht, hdrop⟩
          | some c2 =>
              have h2 := acceptChange_inv { acc with svc := st2 } c2 language h
              obtain ⟨hinv, t, ht, hdrop⟩ := ih _ h2
              refine ⟨hinv, TraceEvent.cacheDrop c2.preferenceName :: t, ?_, ?_⟩
              · rw [ht, acceptChange_trace]
                simp
              · intro e he
                rcases List.mem_cons.mp he with rfl | he2
                · rfl
                · exact hdrop e he2

theorem reconcileLanguagePhase_inv (env : Env) :
    ∀ (ls : List (String × List PreferenceProviderDataChange)) (acc : ReconcileAcc),
      ReconcileInv acc →
      ReconcileInv (reconcileLanguagePhase env ls acc).2
        ∧ ∃ t, (reconcileLanguagePhase env ls acc).2.trace = acc.trace ++ t
            ∧ ∀ e ∈ t, e.isDrop = true := by
  intro ls
  induction ls with
  | nil =>
      intro acc h
      exact ⟨h, [], by simp [reconcileLanguagePhase], by simp⟩
  | cons lg rest ih =>
      intro acc h
      unfold reconcileLanguagePhase
      obtain ⟨hinv1, t1, ht1, hd1⟩ := tryAcceptChanges_inv env (some lg.1) lg.2 acc h
      cases hb : (tryAcceptChanges env acc (some lg.1) lg.2).1 with
      | true =>
          rw [(by rw [← hb] : tryAcceptChanges env acc (some lg.1) lg.2
            = (true, (tryAcceptChanges env acc (some lg.1) lg.2).2))]
          simp only []
          exact ⟨hinv1, t1, ht1, hd1⟩
      | false =>
          rw [(by rw [← hb] : tryAcceptChanges env acc (some lg.1) lg.2
            = (false, (tryAcceptChanges env acc (some lg.1) lg.2).2))]
          simp only []
          obtain ⟨hinv2, t2, ht2, hd2⟩ := ih _ hinv1
          refine ⟨hinv2, t1 ++ t2, ?_, ?_⟩
          · rw [ht2, ht1]
            simp
          · intro e he
            rcases List.mem_append.mp he with he2 | he2
            · exact hd1 e he2
            · exact hd2 e he2

theorem reconcile_decomp (env : Env) (st : ServiceState)
    (changes : PreferenceProviderDataChanges) :
    ∃ d e, (reconcilePreferences env st changes).1 = d ++ e
      ∧ (∀ ev ∈ d, ev.isDrop = true)
      ∧ (∀ ev ∈ e, ev.isDrop = false)
      ∧ (∀ ev ∈ e, ∀ n, ev.emitsName n = true → TraceEvent.cacheDrop n ∈ d) := by
  unfold reconcilePreferences
  simp only []
  have hinv0 : ReconcileInv
      { svc := st, trace := [], changesToEmit := [], languageChanges := [] } := by
    refine ⟨?_, ?_⟩
    · intro p hp
      simp at hp
    · intro q hq p hp
      simp at hq
  obtain ⟨hinv1, t1, ht1, hd1⟩ := tryAcceptChanges_inv env none changes.dflt _ hinv0
  cases hb1 : (tryAcceptChanges env
      { svc := st, trace := [], changesToEmit := [], languageChanges := [] }
      none changes.dflt).1 with
  | true =>
      rw [(by rw [← hb1] : tryAcceptChanges env
        { svc := st, trace := [], changesToEmit := [], languageChanges := [] }
        none changes.dflt
        = (true, (tryAcceptChanges env
            { svc := st, trace := [], changesToEmit := [], languageChanges := [] }
            none changes.dflt).2))]
      simp only []
      refine ⟨t1, [], by simpa using ht1, hd1, by simp, by simp⟩
  | false =>
      rw [(by rw [← hb1] : tryAcceptChanges env
        { svc := st, trace := [], changesToEmit := [], languageChanges := [] }
        none changes.dflt
        = (false, (tryAcceptChanges env
            { svc := st, trace := [], changesToEmit := [], languageChanges := [] }
            none changes.dflt).2))]
      simp only []
      obtain ⟨hinv2, t2, ht2, hd2⟩ :=
        reconcileLanguagePhase_inv env changes.languageSpecific _ hinv1
      cases hb2 : (reconcileLanguagePhase env changes.languageSpecific
          (tryAcceptChanges env
            { svc := st, trace := [], changesToEmit := [], languageChanges := [] }
            none changes.dflt).2).1 with
      | true =>
          rw [(by rw [← hb2] : reconcileLanguagePhase env changes.languageSpecific
            (tryAcceptChanges env
              { svc := st, trace := [], changesToEmit := [], languageChanges := [] }
              none changes.dflt).2
            = (true, (reconcileLanguagePhase env changes.languageSpecific
                (tryAcceptChanges env
                  { svc := st, trace := [], changesToEmit := [], languageChanges := [] }
                  none changes.dflt).2).2))]
          simp only []
          refine ⟨t1 ++ t2, [], ?_, ?_, by simp, by simp⟩
          · rw [ht2, ht1]
            simp
          · intro ev hev
            rcases List.mem_append.mp hev with h | h
            · exact hd1 ev h
            · exact hd2 ev h
      | false =>
          rw [(by rw [← hb2] : reconcileLanguagePhase env changes.languageSpecific
            (tryAcceptChanges env
              { svc := st, trace := [], changesToEmit := [], languageChanges := [] }
              none changes.dflt).2
            = (false, (reconcileLanguagePhase env changes.languageSpecific
                (tryAcceptChanges env
                  { svc := st, trace := [], changesToEmit := [], languageChanges := [] }
                  none changes.dflt).2).2))]
          simp only []
          set acc2 := (reconcileLanguagePhase env changes.languageSpecific
            (tryAcceptChanges env
              { svc := st, trace := [], changesToEmit := [], languageChanges := [] }
              none changes.dflt).2).2 with hacc2
          refine ⟨acc2.trace,
            (if (acc2.changesToEmit.map (fun p => p.1)).length > 0
             then [TraceEvent.emitBatch (acc2.changesToEmit.map (fun p => p.1))] else [])
            ++ ((acc2.changesToEmit.map (fun p => p.1)).map TraceEvent.emitSingle
              ++ acc2.languageChanges.map
                  (fun p => TraceEvent.emitLanguage p.1 (p.2.map (fun q => q.1)))),
            by simp, ?_, ?_, ?_⟩
          · intro ev hev
            rw [ht2, ht1] at hev
            simp only [List.nil_append] at hev
            rcases List.mem_append.mp hev with h | h
            · exact hd1 ev h
            · exact hd2 ev h
          · intro ev hev
            rcases List.mem_append.mp hev with h | h
            · by_cases hc : (acc2.changesToEmit.map (fun p => p.1)).length > 0
              · rw [if_pos hc] at h
                rcases List.mem_singleton.mp h with rfl
                rfl
              · rw [if_neg hc] at h
                simp at h
            · rcases List.mem_append.mp h with h2 | h2
              · obtain ⟨n, _, rfl⟩ := List.mem_map.mp h2
                rfl
              · obtain ⟨q, _, rfl⟩ := List.mem_map.mp h2
                rfl
          · intro ev hev n hn
            rcases List.mem_append.mp hev with h | h
            · by_cases hc : (acc2.changesToEmit.map (fun p => p.1)).length > 0
              · rw [if_pos hc] at h
                rcases List.mem_singleton.mp h with rfl
                have hn2 : n ∈ acc2.changesToEmit.map (fun p => p.1) := by
                  simpa [TraceEvent.emitsName] using hn
                obtain ⟨p, hp, rfl⟩ := List.mem_map.mp hn2
                exact hinv2.1 p hp
              · rw [if_neg hc] at h
                simp at h
            · rcases List.mem_append.mp h with h2 | h2
              · obtain ⟨m, hm, rfl⟩ := List.mem_map.mp h2
                have hmn : m = n := by
                  simpa [TraceEvent.emitsName] using hn
                subst hmn
                obtain ⟨p, hp, rfl⟩ := List.mem_map.mp hm
                exact hinv2.1 p hp
              · obtain ⟨q, hq, rfl⟩ := List.mem_map.mp h2
                have hn2 : n ∈ q.2.map (fun r => r.1) := by
                  simpa [TraceEvent.emitsName] using hn
                obtain ⟨p, hp, rfl⟩ := List.mem_map.mp hn2
                exact hinv2.2 q hq p hp

/-- Claim C9: in every reconciliation pass, every cache invalidation strictly
precedes every consumer-facing event of the pass in the observable step
trace, and every preference name a fired event announces had its whole cache
entry dropped at some step before that event fired — so a resolve performed
by an event listener never reads a cache entry computed before the change was
applied. -/
theorem c9_drop_before_emit (env : Env) (st : ServiceState)
    (changes : PreferenceProviderDataChanges) (j : Nat)
    (hj : j < (reconcilePreferences env st changes).1.length)
    (hemit : ((reconcilePreferences env st changes).1.get ⟨j, hj⟩).isEmit = true) :
    (∀ i (hi : i < (reconcilePreferences env st changes).1.length),
        ((reconcilePreferences env st changes).1.get ⟨i, hi⟩).isDrop = true → i < j)
    ∧ (∀ n, ((reconcilePreferences env st changes).1.get ⟨j, hj⟩).emitsName n = true →
        TraceEvent.cacheDrop n ∈ (reconcilePreferences env st changes).1.take j) := by
  obtain ⟨d, e, hde, hd, he, hcov⟩ := reconcile_decomp env st changes
  have hlen : (reconcilePreferences env st changes).1.length = d.length + e.length := by
    rw [hde, List.length_append]
  have hjd : d.length ≤ j := by
    by_contra hlt
    push_neg at hlt
    have hg : (reconcilePreferences env st changes).1.get ⟨j, hj⟩
        = d.get ⟨j, hlt⟩ := by
      rw [List.get_eq_getElem, List.get_eq_getElem]
      simp only [hde]
      exact List.getElem_append_left hlt
    rw [hg] at hemit
    have hdj := hd _ (d.get_mem j hlt)
    unfold TraceEvent.isEmit at hemit
    rw [hdj] at hemit
    simp at hemit
  refine ⟨?_, ?_⟩
  · intro i hi hdropi
    have hid : i < d.length := by
      by_contra hge
      push_neg at hge
      have hb : i - d.length < e.length := by omega
      have hg : (reconcilePreferences env st changes).1.get ⟨i, hi⟩
          = e.get ⟨i - d.length, hb⟩ := by
        rw [List.get_eq_getElem, List.get_eq_getElem]
        simp only [hde]
        exact List.getElem_append_right hge
      rw [hg] at hdropi
      have hei := he _ (e.get_mem (i - d.length) hb)
      rw [hei] at hdropi
      exact Bool.false_ne_true hdropi
    omega
  · intro n hn
    have hb : j - d.length < e.length := by omega
    have hg : (reconcilePreferences env st changes).1.get ⟨j, hj⟩
        = e.get ⟨j - d.length, hb⟩ := by
      rw [List.get_eq_getElem, List.get_eq_getElem]
      simp only [hde]
      exact List.getElem_append_right hjd
    rw [hg] at hn
    have hmem := hcov _ (e.get_mem (j - d.length) hb) n hn
    have hdsub : d = (reconcilePreferences env st changes).1.take d.length := by
      rw [hde, List.take_left]
    rw [hdsub] at hmem
    exact take_subset_take_of_le _ _ _ hjd hmem

/-- Witness for claim C9: reconciling the User-scope update `chC9` in `envC9`
produces the trace [cacheDrop "p", emitBatch ["p"], emitSingle "p"]; at the
emission step j = 1 the theorem places every drop before it and finds the
drop of "p" among the steps taken before it. -/
theorem c9_witness :
    ((reconcilePreferences envC9 emptyState
        { dflt := [chC9], languageSpecific := [] }).1.get ⟨1, by decide⟩).isEmit = true
      ∧ ((∀ i (hi : i < (reconcilePreferences envC9 emptyState
            { dflt := [chC9], languageSpecific := [] }).1.length),
          ((reconcilePreferences envC9 emptyState
            { dflt := [chC9], languageSpecific := [] }).1.get ⟨i, hi⟩).isDrop = true → i < 1)
        ∧ (∀ n, ((reconcilePreferences envC9 emptyState
            { dflt := [chC9], languageSpecific := [] }).1.get ⟨1, by decide⟩).emitsName n = true →
            TraceEvent.cacheDrop n ∈ (reconcilePreferences envC9 emptyState
              { dflt := [chC9], languageSpecific := [] }).1.take 1)) :=
  ⟨by decide,
   c9_drop_before_emit envC9 emptyState { dflt := [chC9], languageSpecific := [] } 1
     (by decide) (by decide)⟩

theorem lookupA_insertA_other {α : Type} (k k2 : String) (v : α) (l : List (String × α))
    (h : k2 ≠ k) : lookupA k2 (insertA k v l) = lookupA k2 l := by
  have hne : (k == k2) = false := by
    cases hbe : k == k2
    · rfl
    · exact absurd (eq_of_beq hbe).symm h
  induction l with
  | nil =>
      have h0 : lookupA k2 (insertA k v []) = if (k == k2) = true then some v else none := rfl
      rw [h0, hne]
      simp [lookupA]
  | cons kv rest ih =>
      unfold insertA
      cases hk : kv.1 == k
      · simp only [Bool.false_eq_true, if_false]
        unfold lookupA
        cases hk2 : kv.1 == k2 <;> simp [hk2, ih]
      · simp only [if_true]
        have hkk : kv.1 = k := eq_of_beq hk
        have h2 : (kv.1 == k2) = false := by rw [hkk]; exact hne
        unfold lookupA
        rw [hne, h2]
        simp

theorem lookupA_append_of_none {α : Type} (k : String) (l1 l2 : List (String × α))
    (h : lookupA k l1 = none) : lookupA k (l1 ++ l2) = lookupA k l2 := by
  induction l1 with
  | nil => simp
  | cons kv rest ih =>
      unfold lookupA at h
      rw [List.cons_append]
      cases hk : kv.1 == k
      · rw [hk] at h
        simp only [Bool.false_eq_true, if_false] at h
        have h0 : lookupA k (kv :: (rest ++ l2))
            = if (kv.1 == k) = true then some kv.2 else lookupA k (rest ++ l2) := rfl
        rw [h0, hk]
        simp only [Bool.false_eq_true, if_false]
        exact ih h
      · rw [hk] at h
        simp at h

theorem getD_append_length {α : Type} (l : List α) (x d : α) :
    (l ++ [x]).getD l.length d = x := by
  induction l with
  | nil => rfl
  | cons a rest ih =>
      simp only [List.cons_append, List.length_cons, List.getD_cons_succ]
      exact ih

theorem joinDots_take_succ (parts : List String) :
    ∀ i : Nat, 1 ≤ i → i < parts.length →
      ∃ s : String, joinDots (parts.take (i + 1)) = joinDots (parts.take i) ++ "." ++ s := by
  induction parts with
  | nil =>
      intro i h1 h2
      simp at h2
  | cons p rest ih =>
      intro i h1 h2
      cases i with
      | zero => exact absurd h1 (by omega)
      | succ i2 =>
          cases i2 with
          | zero =>
              cases rest with
              | nil => simp at h2
              | cons q rest2 =>
                  refine ⟨q, ?_⟩
                  simp [joinDots]
          | succ i3 =>
              have hr : 1 ≤ i3 + 1 := by omega
              have hr2 : i3 + 1 < rest.length := by
                simp at h2
                omega
              obtain ⟨s, hs⟩ := ih (i3 + 1) hr hr2
              refine ⟨s, ?_⟩
              have hkeep : ∀ m : Nat, 1 ≤ m → m ≤ rest.length →
                  joinDots ((p :: rest).take (m + 1)) = p ++ "." ++ joinDots (rest.take m) := by
                intro m hm1 hm2
                cases rest with
                | nil => simp at hm2; omega
                | cons q rest2 =>
                    cases m with
                    | zero => omega
                    | succ m2 => simp [joinDots]
              rw [hkeep (i3 + 2) (by omega) (by omega), hkeep (i3 + 1) (by omega) (by omega), hs]
              simp [String.append_assoc]

theorem prefixJoin_length_lt (parts : List String) (i j : Nat)
    (h1 : 1 ≤ i) (hij : i < j) (hj : j ≤ parts.length) :
    (prefixJoin parts i).length < (prefixJoin parts j).length := by
  induction j with
  | zero => omega
  | succ j2 ih =>
      obtain hlt | heq := Nat.lt_or_eq_of_le (Nat.lt_succ_iff.mp hij)
      · have hstep := joinDots_take_succ parts j2 (by omega) (by omega)
        obtain ⟨s, hs⟩ := hstep
        have h2 := ih hlt (by omega)
        unfold prefixJoin at h2 ⊢
        rw [hs]
        simp only [String.length_append]
        have hdot : ".".length = 1 := rfl
        omega
      · subst heq
        have hstep := joinDots_take_succ parts i h1 (by omega)
        obtain ⟨s, hs⟩ := hstep
        unfold prefixJoin
        rw [hs]
        simp only [String.length_append]
        have hdot : ".".length = 1 := rfl
        omega

theorem prefixJoin_ne (parts : List String) (i j : Nat)
    (h1 : 1 ≤ i) (hij : i < j) (hj : j ≤ parts.length) :
    prefixJoin parts i ≠ prefixJoin parts j := by
  intro he
  have hl := prefixJoin_length_lt parts i j h1 hij hj
  rw [he] at hl
  omega

theorem isUndefined_true_eq (v : JSVal) (h : v.isUndefined = true) : v = .undefinedVal := by
  cases v <;> first | rfl | simp [JSVal.isUndefined] at h

theorem doResolve_fresh_value (env : Env) (st : ServiceState) (preferenceName : String)
    (resourceUri : Option String) (untilScope : Option PreferenceScope)
    (language : Option String)
    (h : freshFor st preferenceName = true) :
    (cellAt (doResolve env st preferenceName .undefinedVal resourceUri untilScope language).2
        (doResolve env st preferenceName .undefinedVal resourceUri untilScope language).1).value
      = (doResolveWithOutCache env preferenceName resourceUri untilScope language).value := by
  have hnone : lookupA preferenceName st.cachedPreference = none := by
    unfold freshFor at h
    cases ho : lookupA preferenceName st.cachedPreference
    · rfl
    · rw [ho] at h
      simp at h
  have hinner : lookupA preferenceName (st.cachedPreference ++ [(preferenceName, [])])
      = some ([] : List (String × Nat)) := by
    rw [lookupA_append_of_none _ _ _ hnone]
    simp [lookupA]
  unfold doResolve
  rw [hnone]
  simp only [Option.isSome_none, Bool.false_eq_true, if_false]
  simp only [hinner, Option.getD_some, lookupA]
  cases hu : (doResolveWithOutCache env preferenceName resourceUri untilScope
      language).value.isUndefined
  · simp only [cellAt]
    rw [getD_append_length]
    rw [hu]
    simp only [Bool.false_eq_true, if_false, cellAt]
    rw [getD_append_length]
  · simp only [cellAt]
    rw [getD_append_length]
    rw [hu]
    simp only [if_true, cellAt]
    rw [getD_set_self _ _ _ _ (by simp)]
    simp only []
    rw [isUndefined_true_eq _ hu]

theorem lookupA_append {α : Type} (k : String) (l1 l2 : List (String × α)) :
    lookupA k (l1 ++ l2)
      = match lookupA k l1 with
        | some v => some v
        | none => lookupA k l2 := by
  induction l1 with
  | nil => simp [lookupA]
  | cons kv rest ih =>
      have h0 : lookupA k ((kv :: rest) ++ l2)
          = if (kv.1 == k) = true then some kv.2 else lookupA k (rest ++ l2) := rfl
      have h1 : (match lookupA k (kv :: rest) with
            | some v => some v
            | none => lookupA k l2)
          = if (kv.1 == k) = true then some kv.2
            else match lookupA k rest with
              | some v => some v
              | none => lookupA k l2 := by
        have h2 : lookupA k (kv :: rest)
            = if (kv.1 == k) = true then some kv.2 else lookupA k rest := rfl
        rw [h2]
        cases hk : kv.1 == k <;> simp
      rw [h0, h1]
      cases hk : kv.1 == k
      · simp only [Bool.false_eq_true, if_false]
        exact ih
      · simp only [if_true]

theorem lookupA_append_single_other {α : Type} (k n : String) (x : α)
    (l : List (String × α)) (hne : k ≠ n) :
    lookupA k (l ++ [(n, x)]) = lookupA k l := by
  have hbe2 : (n == k) = false := by
    cases hbe : n == k
    · rfl
    · exact absurd (eq_of_beq hbe).symm hne
  rw [lookupA_append]
  cases hl : lookupA k l
  · simp [lookupA, hbe2]
  · simp

theorem doResolve_maps (env : Env) (st : ServiceState) (preferenceName : String)
    (defaultValue : JSVal) (resourceUri : Option String)
    (untilScope : Option PreferenceScope) (language : Option String) (name2 : String)
    (hne : name2 ≠ preferenceName) :
    lookupA name2 (doResolve env st preferenceName defaultValue resourceUri untilScope
        language).2.cachedPreference
      = lookupA name2 st.cachedPreference := by
  unfold doResolve
  simp only []
  cases ho : (lookupA preferenceName st.cachedPreference).isSome
  · simp only [Bool.false_eq_true, if_false]
    cases hk : lookupA (cacheHash language untilScope resourceUri)
        ((lookupA preferenceName (st.cachedPreference ++ [(preferenceName, [])])).getD []) with
    | some i =>
        simp only [hk]
        simp only [apply_ite ServiceState.cachedPreference]
        simp only [ite_self]
        exact lookupA_append_single_other _ _ _ _ hne
    | none =>
        simp only [hk]
        simp only [apply_ite ServiceState.cachedPreference]
        simp only [ite_self]
        rw [lookupA_insertA_other _ _ _ _ hne]
        exact lookupA_append_single_other _ _ _ _ hne
  · simp only [if_true]
    cases hk : lookupA (cacheHash language untilScope resourceUri)
        ((lookupA preferenceName st.cachedPreference).getD []) with
    | some i =>
        simp only [hk]
        simp only [apply_ite ServiceState.cachedPreference]
        simp only [ite_self]
    | none =>
        simp only [hk]
        simp only [apply_ite ServiceState.cachedPreference]
        simp only [ite_self]
        exact lookupA_insertA_other _ _ _ _ hne

theorem doResolve_fresh_preserve (env : Env) (st : ServiceState) (preferenceName : String)
    (defaultValue : JSVal) (resourceUri : Option String)
    (untilScope : Option PreferenceScope) (language : Option String) (name2 : String)
    (hne : name2 ≠ preferenceName) (h2 : freshFor st name2 = true) :
    freshFor (doResolve env st preferenceName defaultValue resourceUri untilScope
      language).2 name2 = true := by
  unfold freshFor at h2 ⊢
  rw [doResolve_maps _ _ _ _ _ _ _ _ hne]
  exact h2

theorem lookUpLoop_clean (env : Env) (parts : List String) :
    ∀ (i0 : Nat) (st : ServiceState),
      i0 < parts.length →
      (∀ j, 1 ≤ j → j ≤ i0 → freshFor st (prefixJoin parts j) = true) →
      (lookUpLoop env st parts i0).1
        = match largestTruthy env parts i0 with
          | some k => (prefixValue env parts k, some (parts.drop k))
          | none => ((if i0 = 0 then JSVal.undefinedVal else prefixValue env parts 1), none) := by
  intro i0
  induction i0 with
  | zero =>
      intro st hlen hclean
      simp [lookUpLoop, largestTruthy]
  | succ i ih =>
      intro st hlen hclean
      unfold lookUpLoop
      simp only []
      have hval : (cellAt (doResolve env st (prefixJoin parts (i + 1)) .undefinedVal none none none).2
          (doResolve env st (prefixJoin parts (i + 1)) .undefinedVal none none none).1).value
          = prefixValue env parts (i + 1) :=
        doResolve_fresh_value env st _ none none none
          (hclean (i + 1) (by omega) (le_refl _))
      rw [hval]
      unfold largestTruthy
      cases ht : (prefixValue env parts (i + 1)).truthy
      · simp only [Bool.false_eq_true, if_false]
        cases i with
        | zero => simp [largestTruthy]
        | succ i2 =>
            simp only [Nat.succ_ne_zero, if_false]
            have hclean2 : ∀ j, 1 ≤ j → j ≤ i2 + 1 →
                freshFor (doResolve env st (prefixJoin parts (i2 + 2)) .undefinedVal none none
                  none).2 (prefixJoin parts j) = true := by
              intro j hj1 hj2
              exact doResolve_fresh_preserve env st _ .undefinedVal none none none _
                (prefixJoin_ne parts j (i2 + 2) hj1 (by omega) (by omega))
                (hclean j hj1 (by omega))
            rw [ih (doResolve env st (prefixJoin parts (i2 + 2)) .undefinedVal none none none).2
              (by omega) hclean2]
            cases hlc : largestTruthy env parts (i2 + 1) <;> simp [hlc]
      · simp only [if_true]

theorem largestTruthy_spec (env : Env) (parts : List String) :
    ∀ i0 k, largestTruthy env parts i0 = some k →
      (prefixValue env parts k).truthy = true ∧ 1 ≤ k ∧ k ≤ i0 := by
  intro i0
  induction i0 with
  | zero =>
      intro k h
      simp [largestTruthy] at h
  | succ i ih =>
      intro k h
      unfold largestTruthy at h
      cases ht : (prefixValue env parts (i + 1)).truthy
      · rw [ht] at h
        simp only [Bool.false_eq_true, if_false] at h
        obtain ⟨h1, h2, h3⟩ := ih k h
        exact ⟨h1, h2, by omega⟩
      · rw [ht] at h
        simp only [if_true, Option.some.injEq] at h
        subst h
        exact ⟨ht, by omega, le_refl _⟩

/-- Claim C10: during dotted-path fallback on a cache-clean service state, a
proper prefix whose merged value is defined but falsy is never accepted as
the container — the loop skips it and continues to shorter prefixes — and
whatever container the loop does accept has a truthy value, so a falsy
container never supplies the dotted value through the key-access chain. -/
theorem c10_falsy_prefix_never_container (env : Env) (st : ServiceState) (key : String)
    (i : Nat)
    (hclean : ∀ j, 1 ≤ j → j < (jsSplitDot key).length →
        freshFor st (prefixJoin (jsSplitDot key) j) = true)
    (h1 : 1 ≤ i) (h2 : i < (jsSplitDot key).length)
    (hdf : prefixValue env (jsSplitDot key) i ≠ .undefinedVal)
    (hfalsy : (prefixValue env (jsSplitDot key) i).truthy = false) :
    (lookUpLoop env st (jsSplitDot key) ((jsSplitDot key).length - 1)).1.2
        ≠ some ((jsSplitDot key).drop i)
      ∧ ∀ v ks st2,
        lookUpLoop env st (jsSplitDot key) ((jsSplitDot key).length - 1) = ((v, some ks), st2)
        → v.truthy = true := by
  have hchar := lookUpLoop_clean env (jsSplitDot key) ((jsSplitDot key).length - 1) st
    (by omega) (fun j hj1 hj2 => hclean j hj1 (by omega))
  constructor
  · intro hcontra
    cases hlc : largestTruthy env (jsSplitDot key) ((jsSplitDot key).length - 1) with
    | none =>
        rw [hlc] at hchar
        rw [hchar] at hcontra
        simp at hcontra
    | some k =>
        rw [hlc] at hchar
        rw [hchar] at hcontra
        simp only [Option.some.injEq] at hcontra
        obtain ⟨ht, hk1, hk2⟩ := largestTruthy_spec env (jsSplitDot key) _ k hlc
        have hki : k = i := by
          have hlk : ((jsSplitDot key).drop k).length = ((jsSplitDot key).drop i).length := by
            rw [hcontra]
          simp only [List.length_drop] at hlk
          omega
        subst hki
        rw [ht] at hfalsy
        exact Bool.false_ne_true hfalsy.symm
  · intro v ks st2 hloop
    have h1loop : (lookUpLoop env st (jsSplitDot key) ((jsSplitDot key).length - 1)).1
        = (v, some ks) := by rw [hloop]
    cases hlc : largestTruthy env (jsSplitDot key) ((jsSplitDot key).length - 1) with
    | none =>
        rw [hlc] at hchar
        rw [hchar] at h1loop
        simp at h1loop
    | some k =>
        rw [hlc] at hchar
        rw [hchar] at h1loop
        simp only [Prod.mk.injEq] at h1loop
        obtain ⟨ht, hk1, hk2⟩ := largestTruthy_spec env (jsSplitDot key) _ k hlc
        rw [← h1loop.1]
        exact ht

/-- Witness for claim C10: in `envC10`, "a.b" resolves to the defined falsy
`0`, so the dotted lookup of "a.b.c" rejects it as container. -/
theorem c10_witness :
    (prefixValue envC10 (jsSplitDot "a.b.c") 2).truthy = false
      ∧ (lookUpLoop envC10 emptyState (jsSplitDot "a.b.c")
            ((jsSplitDot "a.b.c").length - 1)).1.2
          ≠ some ((jsSplitDot "a.b.c").drop 2) :=
  ⟨rfl,
   (c10_falsy_prefix_never_container envC10 emptyState "a.b.c" 2
     (fun j hj1 hj2 => rfl) (by decide) (by decide)
     (fun h => JSVal.noConfusion h) rfl).1⟩
